import Mathlib

/-!
Verification of the SylphxAI/ast CST/AST layer.

The data model (`Position`, `CstNode`, `Token` variant), the traversal
engine (`traverse`, `findNodesByType`, `findFirst`), the transform/filter
utilities (`filterNodes`), the position derivation (`getLocation`) and the
identifier-extraction example (`extractIdentifiers`) are shallowly embedded
from the TypeScript sources.  Source text is modelled as `List Char`
(JavaScript strings), node `type` tags as `String`.

The rule-to-node visitor and the `parseJavaScript` entry point exist in the
repository only as documented contracts (the generated-parser package body
is not in the tree); those parts are modelled from the specification and
are marked `Modelled from the spec:` in their doc comments.
-/

namespace Ast

/-- `Position` from the core package: a half-open, 0-based character span
`{ startOffset, endOffset }` into the original source string. -/
structure Position where
  startOffset : Nat
  endOffset : Nat
deriving Repr, DecidableEq

/-- `CstNode` from the core package:
`{ type: string; text: string; position: Position; children?: CstNode[] }`.
The `token` constructor is the variant in which the optional `children`
field is absent (the `Token` interface: `children?: undefined`); the
`node` constructor is the variant in which `children` is present (possibly
as an empty array). -/
inductive CstNode where
  | token (type : String) (text : List Char) (position : Position)
  | node (type : String) (text : List Char) (position : Position)
      (children : List CstNode)

namespace CstNode

/-- The `type` field of a node. -/
def type : CstNode → String
  | .token ty _ _ => ty
  | .node ty _ _ _ => ty

/-- The `text` field of a node. -/
def text : CstNode → List Char
  | .token _ tx _ => tx
  | .node _ tx _ _ => tx

/-- The `position` field of a node. -/
def position : CstNode → Position
  | .token _ _ p => p
  | .node _ _ p _ => p

/-- The optional `children` field: `none` models the absent/`undefined`
field of the `Token` variant, `some cs` a present array. -/
def children : CstNode → Option (List CstNode)
  | .token _ _ _ => none
  | .node _ _ _ cs => some cs

end CstNode

/-- `isToken` from the docs API (Type Guards):
`node.children === undefined`. -/
def isToken (n : CstNode) : Bool :=
  n.children.isNone

/-- Induction principle for `CstNode` giving the inductive hypothesis for
every member of a composite node's `children` list. -/
theorem CstNode.member_ind {motive : CstNode → Prop}
    (h1 : ∀ ty tx p, motive (.token ty tx p))
    (h2 : ∀ ty tx p cs, (∀ c ∈ cs, motive c) → motive (.node ty tx p cs)) :
    ∀ n, motive n :=
  fun n =>
    CstNode.rec (motive_1 := motive) (motive_2 := fun l => ∀ c ∈ l, motive c)
      (fun ty tx p => h1 ty tx p)
      (fun ty tx p cs ih => h2 ty tx p cs ih)
      (fun c hc => absurd hc (List.not_mem_nil c))
      (fun c cs hc hcs x hx => by
        rcases List.mem_cons.mp hx with hx | hx
        · exact hx ▸ hc
        · exact hcs x hx)
      n

/-! ## Traversal engine (docs API, Utility Functions)

`traverse(node, callback)` invokes `callback(node)` and then, when a
`children` field is present, walks each child left to right.  The
callback's side effects are modelled by explicit state passing: the
callback is an arbitrary state transformer `f : CstNode → σ → σ` applied
exactly at the points the source invokes it. -/

mutual

/-- `traverse` from the docs API: `callback(node); if (node.children) for
(const child of node.children) traverse(child, callback)`. -/
def traverse {σ : Type _} (f : CstNode → σ → σ) : CstNode → σ → σ
  | .token ty tx p, s => f (.token ty tx p) s
  | .node ty tx p cs, s => traverseList f cs (f (.node ty tx p cs) s)

/-- The `for (const child of node.children)` loop of `traverse`. -/
def traverseList {σ : Type _} (f : CstNode → σ → σ) : List CstNode → σ → σ
  | [], s => s
  | c :: cs, s => traverseList f cs (traverse f c s)

end

/-- The sequence of nodes on which `traverse` invokes its callback, read
off by running `traverse` with a callback that records its argument. -/
def visitSeq (n : CstNode) : List CstNode :=
  traverse (fun nd acc => acc ++ [nd]) n []

/-- `findNodesByType` from the docs API: runs `traverse` with a callback
that pushes every node whose `type` matches onto `results`. -/
def findNodesByType (root : CstNode) (ty : String) : List CstNode :=
  traverse (fun nd results => if nd.type == ty then results ++ [nd] else results)
    root []

mutual

/-- The manual document-order enumeration of a tree from the spec's
traversal-order law: parent first, then the children's enumerations left
to right in source order. -/
def preorder : CstNode → List CstNode
  | .token ty tx p => [.token ty tx p]
  | .node ty tx p cs => .node ty tx p cs :: preorderList cs

/-- Document-order enumeration of a forest, left to right. -/
def preorderList : List CstNode → List CstNode
  | [] => []
  | c :: cs => preorder c ++ preorderList cs

end

theorem traverseList_foldl {σ : Type _} (f : CstNode → σ → σ) :
    ∀ cs : List CstNode,
      (∀ c ∈ cs, ∀ s : σ, traverse f c s = (preorder c).foldl (fun a b => f b a) s) →
      ∀ s : σ, traverseList f cs s = (preorderList cs).foldl (fun a b => f b a) s := by
  intro cs
  induction cs with
  | nil => intro _ s; simp [traverseList, preorderList]
  | cons c cs' ihl =>
    intro h s
    simp only [traverseList, preorderList, List.foldl_append]
    rw [h c (List.mem_cons_self c cs')]
    exact ihl (fun x hx => h x (List.mem_cons_of_mem c hx)) _

theorem traverse_foldl {σ : Type _} (f : CstNode → σ → σ) :
    ∀ n, ∀ s : σ, traverse f n s = (preorder n).foldl (fun a b => f b a) s := by
  intro n
  induction n using CstNode.member_ind with
  | h1 ty tx p => intro s; simp [traverse, preorder]
  | h2 ty tx p cs ih =>
    intro s
    simp only [traverse, preorder, List.foldl_cons]
    exact traverseList_foldl f cs ih _

theorem foldl_push {α : Type _} :
    ∀ (l acc : List α), l.foldl (fun a b => a ++ [b]) acc = acc ++ l := by
  intro l
  induction l with
  | nil => simp
  | cons x xs ih => intro acc; simp [List.foldl_cons, ih]

theorem foldl_push_filter {α : Type _} (p : α → Bool) :
    ∀ (l acc : List α),
      l.foldl (fun a b => if p b then a ++ [b] else a) acc = acc ++ l.filter p := by
  intro l
  induction l with
  | nil => simp
  | cons x xs ih =>
    intro acc
    by_cases h : p x <;> simp [List.foldl_cons, List.filter_cons, h, ih]

theorem visitSeq_eq_preorder (n : CstNode) : visitSeq n = preorder n := by
  unfold visitSeq
  rw [traverse_foldl]
  simpa using foldl_push (preorder n) []

theorem findNodesByType_eq_filter (root : CstNode) (ty : String) :
    findNodesByType root ty = (preorder root).filter (fun nd => nd.type == ty) := by
  unfold findNodesByType
  rw [traverse_foldl]
  simpa using foldl_push_filter (fun nd => nd.type == ty) (preorder root) []

/-- C5. Traversal-order law: the callback-invocation sequence of `traverse`
(for every callback and initial state, obtained by folding the callback
over the manual pre-order document-order enumeration), and the list that
`findNodesByType` returns, equal the manual pre-order enumeration of the
tree — parent before children, siblings left to right — respectively its
restriction to the nodes whose `type` matches. -/
theorem claim_C5_traversal_order (n : CstNode) (ty : String) :
    (∀ (σ : Type) (f : CstNode → σ → σ) (s : σ),
        traverse f n s = (preorder n).foldl (fun a b => f b a) s)
    ∧ visitSeq n = preorder n
    ∧ findNodesByType n ty = (preorder n).filter (fun nd => nd.type == ty) :=
  ⟨fun _ f s => traverse_foldl f n s, visitSeq_eq_preorder n,
    findNodesByType_eq_filter n ty⟩

/-! ## Find-first (docs API, Generic Helpers) -/

mutual

/-- `findFirst` from the docs API: `if (predicate(root)) return root;
if (root.children) { for (const child of root.children) { const found =
findFirst(child, predicate); if (found) return found; } } return null`. -/
def findFirst : CstNode → (CstNode → Bool) → Option CstNode
  | .token ty tx p, pr =>
      if pr (.token ty tx p) then some (.token ty tx p) else none
  | .node ty tx p cs, pr =>
      if pr (.node ty tx p cs) then some (.node ty tx p cs)
      else findFirstList cs pr

/-- The `for (const child of root.children)` loop of `findFirst`, returning
at the first child subtree that yields a match. -/
def findFirstList : List CstNode → (CstNode → Bool) → Option CstNode
  | [], _ => none
  | c :: cs, pr =>
      match findFirst c pr with
      | some found => some found
      | none => findFirstList cs pr

end

mutual

/-- `findFirst` instrumented with the list of nodes on which the predicate
is evaluated, in evaluation order; the recursion structure is exactly that
of `findFirst`. -/
def findFirstTrace : CstNode → (CstNode → Bool) → Option CstNode × List CstNode
  | .token ty tx p, pr =>
      (if pr (.token ty tx p) then some (.token ty tx p) else none,
        [CstNode.token ty tx p])
  | .node ty tx p cs, pr =>
      if pr (.node ty tx p cs) then
        (some (.node ty tx p cs), [CstNode.node ty tx p cs])
      else
        let r := findFirstTraceList cs pr
        (r.1, CstNode.node ty tx p cs :: r.2)

/-- The child loop of `findFirstTrace`. -/
def findFirstTraceList : List CstNode → (CstNode → Bool) → Option CstNode × List CstNode
  | [], _ => (none, [])
  | c :: cs, pr =>
      match findFirstTrace c pr with
      | (some found, vs) => (some found, vs)
      | (none, vs) =>
        let r := findFirstTraceList cs pr
        (r.1, vs ++ r.2)

end

/-- The prefix of a list up to and including its first element satisfying
`p` (the whole list when no element does). -/
def takeThrough {α : Type _} (p : α → Bool) : List α → List α
  | [] => []
  | x :: xs => if p x then [x] else x :: takeThrough p xs

theorem find?_append {α : Type _} (p : α → Bool) :
    ∀ l1 l2 : List α,
      (l1 ++ l2).find? p =
        (match l1.find? p with | some x => some x | none => l2.find? p) := by
  intro l1
  induction l1 with
  | nil => intro l2; simp
  | cons a l1 ih =>
    intro l2
    by_cases h : p a
    · simp [List.find?_cons_of_pos _ h]
    · simp only [List.cons_append, List.find?_cons_of_neg _ h, ih]

theorem takeThrough_append {α : Type _} (p : α → Bool) :
    ∀ l1 l2 : List α,
      takeThrough p (l1 ++ l2) =
        if (l1.find? p).isSome then takeThrough p l1
        else l1 ++ takeThrough p l2 := by
  intro l1
  induction l1 with
  | nil => intro l2; simp
  | cons a l1 ih =>
    intro l2
    by_cases h : p a
    · simp [takeThrough, h, List.find?_cons_of_pos _ h]
    · by_cases h2 : (l1.find? p).isSome <;>
        simp [takeThrough, h, List.find?_cons_of_neg _ h, h2, ih l2]

theorem takeThrough_of_none {α : Type _} (p : α → Bool) :
    ∀ l : List α, l.find? p = none → takeThrough p l = l := by
  intro l
  induction l with
  | nil => intro _; rfl
  | cons a l ih =>
    intro h
    by_cases ha : p a
    · simp [List.find?_cons_of_pos _ ha] at h
    · rw [List.find?_cons_of_neg _ ha] at h
      simp [takeThrough, ha, ih h]

theorem findFirstList_eq (pr : CstNode → Bool) :
    ∀ cs : List CstNode,
      (∀ c ∈ cs, findFirst c pr = (preorder c).find? pr) →
      findFirstList cs pr = (preorderList cs).find? pr := by
  intro cs
  induction cs with
  | nil => intro _; simp [findFirstList, preorderList]
  | cons c cs ih =>
    intro h
    simp only [findFirstList, preorderList, find?_append]
    rw [← h c (List.mem_cons_self c cs),
      ih (fun x hx => h x (List.mem_cons_of_mem c hx))]
    rcases hfc : findFirst c pr with _ | found <;> simp [hfc]

theorem findFirst_eq (pr : CstNode → Bool) :
    ∀ n, findFirst n pr = (preorder n).find? pr := by
  intro n
  induction n using CstNode.member_ind with
  | h1 ty tx p =>
    by_cases h : pr (CstNode.token ty tx p) <;>
      simp [findFirst, preorder, List.find?, h]
  | h2 ty tx p cs ih =>
    by_cases h : pr (CstNode.node ty tx p cs)
    · simp [findFirst, preorder, h, List.find?_cons_of_pos _ h]
    · simp only [findFirst, preorder, h, if_false, List.find?_cons_of_neg _ h]
      exact findFirstList_eq pr cs ih

theorem findFirstTraceList_eq (pr : CstNode → Bool) :
    ∀ cs : List CstNode,
      (∀ c ∈ cs, findFirstTrace c pr = (findFirst c pr, takeThrough pr (preorder c))) →
      findFirstTraceList cs pr =
        (findFirstList cs pr, takeThrough pr (preorderList cs)) := by
  intro cs
  induction cs with
  | nil => intro _; simp [findFirstTraceList, findFirstList, preorderList, takeThrough]
  | cons c cs ih =>
    intro h
    have hc := h c (List.mem_cons_self c cs)
    have hrest := ih (fun x hx => h x (List.mem_cons_of_mem c hx))
    have hfind : (preorder c).find? pr = findFirst c pr := (findFirst_eq pr c).symm
    simp only [findFirstTraceList, findFirstList, preorderList, hc, hrest,
      takeThrough_append, ← hfind]
    cases hcase : (preorder c).find? pr with
    | some found => simp [hcase]
    | none => simp [hcase, takeThrough_of_none pr (preorder c) hcase]

theorem findFirstTrace_eq (pr : CstNode → Bool) :
    ∀ n, findFirstTrace n pr = (findFirst n pr, takeThrough pr (preorder n)) := by
  intro n
  induction n using CstNode.member_ind with
  | h1 ty tx p =>
    by_cases h : pr (CstNode.token ty tx p) <;>
      simp [findFirstTrace, findFirst, preorder, takeThrough, h]
  | h2 ty tx p cs ih =>
    by_cases h : pr (CstNode.node ty tx p cs)
    · simp [findFirstTrace, findFirst, preorder, takeThrough, h]
    · simp only [findFirstTrace, findFirst, preorder, takeThrough, h, if_false]
      rw [findFirstTraceList_eq pr cs ih]
      simp

/-- C6. Find-first short-circuits: `findFirst` returns the first node of
the manual pre-order document-order enumeration satisfying the predicate
(`List.find?`), `none` when no node satisfies it; and the nodes it
examines — recorded by the instrumented `findFirstTrace`, whose recursion
mirrors `findFirst` exactly — form precisely the pre-order prefix up to
and including the first match, so after a match no sibling or descendant
subtree is entered. -/
theorem claim_C6_findFirst_short_circuit (n : CstNode) (pr : CstNode → Bool) :
    findFirst n pr = (preorder n).find? pr
    ∧ findFirstTrace n pr = (findFirst n pr, takeThrough pr (preorder n)) :=
  ⟨findFirst_eq pr n, findFirstTrace_eq pr n⟩

/-! ## Filter (docs API, AST Filtering) -/

mutual

/-- `filterNodes` from the docs API: `if (!predicate(node)) return null;
if (!node.children) return node; const filteredChildren = node.children
.map(child => filterNodes(child, predicate)).filter(child => child !==
null); return { ...node, children: filteredChildren };`.  The spread
`{ ...node, children: filteredChildren }` keeps `type`, `text` and
`position` and replaces only `children`. -/
def filterNodes : CstNode → (CstNode → Bool) → Option CstNode
  | .token ty tx p, pr =>
      if pr (.token ty tx p) then some (.token ty tx p) else none
  | .node ty tx p cs, pr =>
      if pr (.node ty tx p cs) then
        some (.node ty tx p (filterChildren cs pr))
      else none

/-- The `map`-then-drop-`null` pass of `filterNodes` over a children
array. -/
def filterChildren : List CstNode → (CstNode → Bool) → List CstNode
  | [], _ => []
  | c :: cs, pr =>
      match filterNodes c pr with
      | none => filterChildren cs pr
      | some c2 => c2 :: filterChildren cs pr

end

theorem filterChildren_true :
    ∀ cs : List CstNode,
      (∀ c ∈ cs, filterNodes c (fun _ => true) = some c) →
      filterChildren cs (fun _ => true) = cs := by
  intro cs
  induction cs with
  | nil => intro _; rfl
  | cons c cs ih =>
    intro h
    simp only [filterChildren, h c (List.mem_cons_self c cs)]
    rw [ih (fun x hx => h x (List.mem_cons_of_mem c hx))]

theorem filterNodes_true :
    ∀ n : CstNode, filterNodes n (fun _ => true) = some n := by
  intro n
  induction n using CstNode.member_ind with
  | h1 ty tx p => simp [filterNodes]
  | h2 ty tx p cs ih => simp [filterNodes, filterChildren_true cs ih]

theorem filterNodes_root_fails (n : CstNode) (pr : CstNode → Bool)
    (h : pr n = false) : filterNodes n pr = none := by
  cases n <;> simp [filterNodes, CstNode.type, h]

/-- C7. Filter identity laws: filtering with the constant-true predicate
returns the tree unchanged (deep equality); filtering with the
constant-false predicate — and, in general, with any predicate the root
fails — returns the absent marker `none`, never a node with an empty
children array. -/
theorem claim_C7_filter_identity (t : CstNode) :
    filterNodes t (fun _ => true) = some t
    ∧ filterNodes t (fun _ => false) = none
    ∧ ∀ pr : CstNode → Bool, pr t = false → filterNodes t pr = none :=
  ⟨filterNodes_true t, filterNodes_root_fails t (fun _ => false) rfl,
    fun pr h => filterNodes_root_fails t pr h⟩

/-- Witness for C7 at a concrete tree and a concrete root-failing
predicate. -/
theorem claim_C7_filter_identity_witness :
    filterNodes (.node "Program" ['x'] ⟨0, 1⟩ [.token "Identifier" ['x'] ⟨0, 1⟩])
        (fun nd => nd.type == "Identifier") = none :=
  (claim_C7_filter_identity
    (.node "Program" ['x'] ⟨0, 1⟩ [.token "Identifier" ['x'] ⟨0, 1⟩])).2.2
    (fun nd => nd.type == "Identifier") rfl

/-- C10. Frame law of `filterNodes`: on a node whose `children` field is
present and which itself satisfies the predicate, the result is a node
with the same `type`, `text` and `position`, whose `children` field is
still present — it holds the recursively filtered children and is an
empty array (not an absent field) when every child is pruned. -/
theorem claim_C10_filter_frame (n : CstNode) (cs : List CstNode)
    (pr : CstNode → Bool) (hcs : n.children = some cs) (hp : pr n = true) :
    filterNodes n pr =
      some (.node n.type n.text n.position (filterChildren cs pr)) := by
  cases n with
  | token ty tx p => simp [CstNode.children] at hcs
  | node ty tx p cs0 =>
    simp only [CstNode.children, Option.some.injEq] at hcs
    subst hcs
    simp [filterNodes, hp, CstNode.type, CstNode.text, CstNode.position]

/-- Witness for C10: a root that passes the predicate while every child is
pruned keeps a present-but-empty children array. -/
theorem claim_C10_filter_frame_witness :
    filterNodes (.node "Program" ['x'] ⟨0, 1⟩ [.token "Identifier" ['x'] ⟨0, 1⟩])
        (fun nd => nd.type == "Program")
      = some (.node "Program" ['x'] ⟨0, 1⟩ []) :=
  claim_C10_filter_frame
    (.node "Program" ['x'] ⟨0, 1⟩ [.token "Identifier" ['x'] ⟨0, 1⟩])
    [.token "Identifier" ['x'] ⟨0, 1⟩]
    (fun nd => nd.type == "Program") rfl rfl

/-! ## Position derivation (`getLocation`, AstBuilderVisitor)

The visitor's location helper reads the external parser's start/stop
tokens.  A token carries `line`, `charPositionInLine`, `startIndex`,
`stopIndex` and an optional `text`; a rule context carries `start` and an
optional `stop` token. -/

/-- An external-parser token as consumed by `getLocation`. -/
structure ParseToken where
  line : Nat
  charPositionInLine : Nat
  startIndex : Nat
  stopIndex : Nat
  text : Option (List Char)
deriving Repr, DecidableEq

/-- The part of a `ParserRuleContext` that `getLocation` reads: the `start`
token and the possibly-absent `stop` token. -/
structure RuleCtx where
  start : ParseToken
  stop : Option ParseToken
deriving Repr, DecidableEq

/-- A point of a `SourceLocation`: `{ line, column, offset }`. -/
structure SourcePoint where
  line : Nat
  column : Nat
  offset : Nat
deriving Repr, DecidableEq

/-- `SourceLocation` with `start` and `end` points; the source's `end`
field is named `stop` here because `end` is a Lean keyword. -/
structure SourceLocation where
  start : SourcePoint
  stop : SourcePoint
deriving Repr, DecidableEq

/-- `stop.text?.length || 0` — the length of a token's optional text,
`0` when the text is absent. -/
def tokTextLen (t : ParseToken) : Nat :=
  (t.text.map List.length).getD 0

/-- `getLocation` from the visitor: `const start = ctx.start; const stop =
ctx.stop || start; return { start: { line: start.line, column:
start.charPositionInLine, offset: start.startIndex }, end: { line:
stop.line, column: stop.charPositionInLine + (stop.text?.length || 0),
offset: stop.stopIndex + 1 } };`. -/
def getLocation (ctx : RuleCtx) : SourceLocation :=
  let start := ctx.start
  let stop := ctx.stop.getD start
  { start := { line := start.line, column := start.charPositionInLine,
               offset := start.startIndex },
    stop := { line := stop.line,
              column := stop.charPositionInLine + tokTextLen stop,
              offset := stop.stopIndex + 1 } }

/-- The invariant the external lexer guarantees for the tokens it hands
out: `stopIndex` is the index of the token's last character, so
`stopIndex + 1 = startIndex + text.length`, and every lexical token covers
at least one character. -/
def tokSound (t : ParseToken) : Prop :=
  t.stopIndex + 1 = t.startIndex + tokTextLen t ∧ 0 < tokTextLen t

/-- C8. Position derivation: `getLocation` yields a start offset equal to
the character index of the rule's first token and an end offset equal to
the index immediately after the rule's last token — the last token's start
index plus its text length (given the lexer's `stopIndex` invariant); and
when the rule has no distinguishable stop token, the stop token defaults
to the start token, so the span is the minimal non-empty span covering
that single token. -/
theorem claim_C8_getLocation (ctx : RuleCtx)
    (hstart : tokSound ctx.start)
    (hstop : ∀ t, ctx.stop = some t → tokSound t) :
    (getLocation ctx).start.offset = ctx.start.startIndex
    ∧ (getLocation ctx).stop.offset =
        (ctx.stop.getD ctx.start).startIndex + tokTextLen (ctx.stop.getD ctx.start)
    ∧ (ctx.stop = none →
        (getLocation ctx).stop.offset = ctx.start.startIndex + tokTextLen ctx.start
        ∧ (getLocation ctx).start.offset < (getLocation ctx).stop.offset) := by
  cases hc : ctx.stop with
  | none =>
    refine ⟨rfl, ?_, ?_⟩
    · simp [getLocation, hc, hstart.1]
    · intro _
      constructor
      · simp [getLocation, hc, hstart.1]
      · obtain ⟨h1, h2⟩ := hstart
        simp only [getLocation, hc, Option.getD_none]
        omega
  | some t =>
    have ht := hstop t hc
    refine ⟨rfl, ?_, ?_⟩
    · simp [getLocation, hc, ht.1]
    · intro hnone; exact Option.noConfusion hnone

/-- Witness for C8 at the token for the keyword `const` of
`const x = 42;` with no stop token on the context. -/
theorem claim_C8_getLocation_witness :
    (getLocation ⟨⟨1, 0, 0, 4, some ['c', 'o', 'n', 's', 't']⟩, none⟩).start.offset = 0
    ∧ (getLocation ⟨⟨1, 0, 0, 4, some ['c', 'o', 'n', 's', 't']⟩, none⟩).stop.offset = 5 :=
  have h := claim_C8_getLocation ⟨⟨1, 0, 0, 4, some ['c', 'o', 'n', 's', 't']⟩, none⟩
    (by constructor <;> simp [tokTextLen])
    (fun t ht => Option.noConfusion ht)
  ⟨h.1, by rw [h.2.1]; rfl⟩

/-! ## External parse tree and the rule-to-node visitor

The body of the generated-parser package (the `parseJavaScript` entry
point and the CST-building visitor it runs) is not in the repository
tree; only its documented contract is.  The definitions below are
modelled from the spec accordingly. -/

/-- Modelled from the spec: a lexical token of the external lexer's token
stream — a character offset into the source and the covered text
(consumed interface: start/stop token references each carrying a
character offset). -/
structure LexTok where
  start : Nat
  text : List Char
deriving Repr, DecidableEq

/-- Modelled from the spec: the external parser's parse tree — a rule
context exposes a discriminable rule/terminal identity and an ordered
list of child rule-contexts and/or terminal tokens. -/
inductive PT where
  | term (type : String) (tok : LexTok)
  | rule (type : String) (children : List PT)

/-- Induction principle for `PT` giving the inductive hypothesis for every
child of a rule context. -/
theorem PT.child_ind {motive : PT → Prop}
    (h1 : ∀ ty t, motive (.term ty t))
    (h2 : ∀ ty cs, (∀ c ∈ cs, motive c) → motive (.rule ty cs)) :
    ∀ p, motive p :=
  fun p =>
    PT.rec (motive_1 := motive) (motive_2 := fun l => ∀ c ∈ l, motive c)
      (fun ty t => h1 ty t)
      (fun ty cs ih => h2 ty cs ih)
      (fun c hc => absurd hc (List.not_mem_nil c))
      (fun c cs hc hcs x hx => by
        rcases List.mem_cons.mp hx with hx | hx
        · exact hx ▸ hc
        · exact hcs x hx)
      p

mutual

/-- The token stream covered by a parse (sub)tree, in source order. -/
def PT.toks : PT → List LexTok
  | .term _ t => [t]
  | .rule _ cs => PT.toksList cs

/-- The token stream covered by a forest of parse trees. -/
def PT.toksList : List PT → List LexTok
  | [] => []
  | c :: cs => c.toks ++ PT.toksList cs

end

/-- `source.substring(a, b)`: the characters of `s` with indices in
`[a, b)`. -/
def substr (s : List Char) (a b : Nat) : List Char :=
  (s.take b).drop a

/-- The character index of the first token of a parse (sub)tree. -/
def startOffsetOf (p : PT) : Nat :=
  ((PT.toks p).head?.map LexTok.start).getD 0

/-- The character index immediately after the last token of a parse
(sub)tree: the last token's start index plus its text length. -/
def endOffsetOf (p : PT) : Nat :=
  ((PT.toks p).getLast?.map (fun t => t.start + t.text.length)).getD 0

/-- A lexical token is faithful to the source: it is non-empty and its
text is exactly the covered substring of the source. -/
def wfTok (s : List Char) (t : LexTok) : Bool :=
  decide (0 < t.text.length)
    && decide (substr s t.start (t.start + t.text.length) = t.text)

/-- Adjacent-token ordering in a token stream: each token ends at or
before the next one starts (tokens are non-overlapping and in source
order; skipped whitespace may separate them). -/
def tokStep (a b : LexTok) : Prop :=
  a.start + a.text.length ≤ b.start

/-- A token stream is ordered when every adjacent pair satisfies
`tokStep`. -/
def toksOrdered : List LexTok → Bool
  | [] => true
  | [_] => true
  | a :: b :: rest =>
      decide (a.start + a.text.length ≤ b.start) && toksOrdered (b :: rest)

mutual

/-- Modelled from the spec: well-formedness of a parse tree with respect
to its source — every token is faithful to the source, every rule context
has at least one child (the external parser hands the visitor only rules
that matched at least one token), and the tokens under a rule are ordered
and non-overlapping. -/
def wfPT (s : List Char) : PT → Bool
  | .term _ t => wfTok s t
  | .rule _ cs => !cs.isEmpty && wfList s cs && toksOrdered (PT.toksList cs)

/-- Well-formedness of a forest of parse trees. -/
def wfList (s : List Char) : List PT → Bool
  | [] => true
  | c :: cs => wfPT s c && wfList s cs

end

mutual

/-- Modelled from the spec: the rule-to-node visitor — a terminal token
becomes a `Token` node (no `children` field) whose text and span are the
token's; a rule context becomes a composite node whose children are the
visited child contexts in grammar order, whose span runs from its first
token's start to one past its last token, and whose text is the exact
source substring of that span. -/
def build (s : List Char) : PT → CstNode
  | .term ty t => .token ty t.text ⟨t.start, t.start + t.text.length⟩
  | .rule ty cs =>
      .node ty
        (substr s (startOffsetOf (.rule ty cs)) (endOffsetOf (.rule ty cs)))
        ⟨startOffsetOf (.rule ty cs), endOffsetOf (.rule ty cs)⟩
        (buildList s cs)

/-- The visitor over an ordered list of child contexts. -/
def buildList (s : List Char) : List PT → List CstNode
  | [] => []
  | c :: cs => build s c :: buildList s cs

end

/-- Modelled from the spec: the `parse(sourceText) -> ASTRoot | null`
entry point — the external parser either signals irrecoverable syntax
failure (no parse tree, `none`) or yields a parse tree, which the visitor
then transforms; `parse` returns `null` exactly in the first case and the
visited tree in the second. -/
def parse (external : List Char → Option PT) (s : List Char) : Option CstNode :=
  match external s with
  | none => none
  | some pt => some (build s pt)

/-- `q` is a subtree of `p` (reflexively, through rule children). -/
inductive Subtree : PT → PT → Prop where
  | refl (p : PT) : Subtree p p
  | step {q c : PT} {ty : String} {cs : List PT} :
      c ∈ cs → Subtree q c → Subtree q (.rule ty cs)

theorem wfList_mem {s : List Char} :
    ∀ {cs : List PT}, wfList s cs = true → ∀ c ∈ cs, wfPT s c = true := by
  intro cs
  induction cs with
  | nil => intro _ c hc; exact absurd hc (List.not_mem_nil c)
  | cons c0 cs ih =>
    intro h c hc
    rw [wfList, Bool.and_eq_true] at h
    rcases List.mem_cons.mp hc with hc | hc
    · exact hc ▸ h.1
    · exact ih h.2 c hc

theorem wf_rule_parts {s : List Char} {ty : String} {cs : List PT}
    (h : wfPT s (.rule ty cs) = true) :
    cs ≠ [] ∧ wfList s cs = true ∧ toksOrdered (PT.toksList cs) = true := by
  rw [wfPT, Bool.and_eq_true, Bool.and_eq_true] at h
  refine ⟨?_, h.1.2, h.2⟩
  have := h.1.1
  cases cs with
  | nil => simp [List.isEmpty] at this
  | cons c cs => simp

theorem wfTok_parts {s : List Char} {t : LexTok} (h : wfTok s t = true) :
    0 < t.text.length ∧ substr s t.start (t.start + t.text.length) = t.text := by
  rw [wfTok, Bool.and_eq_true, decide_eq_true_eq, decide_eq_true_eq] at h
  exact h

theorem toks_ne_nil {s : List Char} :
    ∀ p : PT, wfPT s p = true → PT.toks p ≠ [] := by
  intro p
  induction p using PT.child_ind with
  | h1 ty t => intro _; simp [PT.toks]
  | h2 ty cs ih =>
    intro h
    obtain ⟨hne, hwl, _⟩ := wf_rule_parts h
    cases cs with
    | nil => exact absurd rfl hne
    | cons c0 cs =>
      have h0 : PT.toks c0 ≠ [] :=
        ih c0 (List.mem_cons_self c0 cs) (wfList_mem hwl c0 (List.mem_cons_self c0 cs))
      simp only [PT.toks, PT.toksList]
      intro hcontra
      exact h0 (List.append_eq_nil.mp hcontra).1

theorem buildList_eq_map (s : List Char) :
    ∀ cs : List PT, buildList s cs = cs.map (build s) := by
  intro cs
  induction cs with
  | nil => rfl
  | cons c cs ih => simp [buildList, ih]

theorem build_position (s : List Char) :
    ∀ p : PT, (build s p).position = ⟨startOffsetOf p, endOffsetOf p⟩ := by
  intro p
  cases p with
  | term ty t =>
    simp [build, CstNode.position, startOffsetOf, endOffsetOf, PT.toks]
  | rule ty cs => simp [build, CstNode.position]

theorem toksOrdered_chain :
    ∀ l : List LexTok, toksOrdered l = true ↔ List.Chain' tokStep l := by
  intro l
  induction l with
  | nil => simp [toksOrdered]
  | cons a l ih =>
    cases l with
    | nil => simp [toksOrdered]
    | cons b rest =>
      rw [toksOrdered, Bool.and_eq_true, decide_eq_true_eq, List.chain'_cons, ih]
      exact Iff.rfl

theorem wf_chain {s : List Char} :
    ∀ p : PT, wfPT s p = true → List.Chain' tokStep (PT.toks p) := by
  intro p h
  cases p with
  | term ty t => simp [PT.toks]
  | rule ty cs =>
    obtain ⟨_, _, hord⟩ := wf_rule_parts h
    simpa [PT.toks] using (toksOrdered_chain (PT.toksList cs)).mp hord

theorem chain_head_last :
    ∀ (l : List LexTok) (a : LexTok), List.Chain' tokStep (a :: l) →
      ∀ b ∈ (a :: l).getLast?, a.start ≤ b.start + b.text.length := by
  intro l
  induction l with
  | nil =>
    intro a _ b hb
    simp only [List.getLast?_singleton, Option.mem_def, Option.some.injEq] at hb
    subst hb
    exact Nat.le_add_right _ _
  | cons y rest ih =>
    intro a hch b hb
    rw [List.chain'_cons] at hch
    have hyb : y.start ≤ b.start + b.text.length := by
      refine ih y hch.2 b ?_
      simpa [List.getLast?_cons_cons] using hb
    exact Nat.le_trans (Nat.le_trans (Nat.le_add_right _ _) hch.1) hyb

theorem span_le {s : List Char} (p : PT) (h : wfPT s p = true) :
    startOffsetOf p ≤ endOffsetOf p := by
  have hch := wf_chain p h
  have hnn := toks_ne_nil p h
  cases htoks : PT.toks p with
  | nil => exact absurd htoks hnn
  | cons t rest =>
    rw [htoks] at hch
    cases hb : (t :: rest).getLast? with
    | none =>
      exact absurd (List.getLast?_eq_none_iff.mp hb) (by simp)
    | some b =>
      have := chain_head_last rest t hch b (by simpa [Option.mem_def] using hb)
      simp only [startOffsetOf, endOffsetOf, htoks, List.head?_cons, hb,
        Option.map_some', Option.getD_some]
      exact this

theorem toksList_head {c : PT} {cs : List PT} (h : PT.toks c ≠ []) :
    (PT.toksList (c :: cs)).head? = (PT.toks c).head? := by
  simp only [PT.toksList]
  exact List.head?_append_of_ne_nil _ h

theorem toksList_getLast :
    ∀ (cs : List PT) (c : PT), cs.getLast? = some c → PT.toks c ≠ [] →
      (PT.toksList cs).getLast? = (PT.toks c).getLast? := by
  intro cs
  induction cs with
  | nil => intro c hc; exact absurd hc (by simp)
  | cons c0 cs ih =>
    intro c hc hne
    cases cs with
    | nil =>
      simp only [List.getLast?_singleton, Option.some.injEq] at hc
      subst hc
      simp [PT.toksList]
    | cons c1 rest =>
      rw [List.getLast?_cons_cons] at hc
      have htail := ih c hc hne
      have htail_ne : PT.toksList (c1 :: rest) ≠ [] := by
        intro hcontra
        rw [hcontra] at htail
        exact hne (List.getLast?_eq_none_iff.mp htail.symm)
      have hunfold : PT.toksList (c0 :: c1 :: rest) =
          PT.toks c0 ++ PT.toksList (c1 :: rest) := rfl
      rw [hunfold, List.getLast?_append_of_ne_nil _ htail_ne]
      exact htail

theorem startOffsetOf_rule_head {s : List Char} {ty : String}
    {c0 : PT} {cs : List PT}
    (h : wfPT s (.rule ty (c0 :: cs)) = true) :
    startOffsetOf (.rule ty (c0 :: cs)) = startOffsetOf c0 := by
  obtain ⟨_, hwl, _⟩ := wf_rule_parts h
  have h0 : PT.toks c0 ≠ [] :=
    toks_ne_nil c0 (wfList_mem hwl c0 (List.mem_cons_self c0 cs))
  simp only [startOffsetOf, PT.toks, toksList_head h0]

theorem endOffsetOf_rule_last {s : List Char} {ty : String} {cs : List PT}
    {c : PT} (h : wfPT s (.rule ty cs) = true) (hc : cs.getLast? = some c) :
    endOffsetOf (.rule ty cs) = endOffsetOf c := by
  obtain ⟨_, hwl, _⟩ := wf_rule_parts h
  have hmem : c ∈ cs := by
    obtain ⟨hne2, heq⟩ := List.mem_getLast?_eq_getLast (Option.mem_def.mpr hc)
    exact heq ▸ List.getLast_mem hne2
  have hcn : PT.toks c ≠ [] := toks_ne_nil c (wfList_mem hwl c hmem)
  simp only [endOffsetOf, PT.toks, toksList_getLast cs c hc hcn]

theorem chain_spans {s : List Char} :
    ∀ cs : List PT, wfList s cs = true →
      List.Chain' tokStep (PT.toksList cs) →
      List.Chain' (fun c1 c2 => endOffsetOf c1 ≤ startOffsetOf c2) cs := by
  intro cs
  induction cs with
  | nil => intro _ _; exact List.chain'_nil
  | cons c1 cs ih =>
    intro hwl hch
    rw [wfList, Bool.and_eq_true] at hwl
    cases cs with
    | nil => exact List.chain'_singleton c1
    | cons c2 rest =>
      have h1 : PT.toks c1 ≠ [] := toks_ne_nil c1 hwl.1
      have h2 : PT.toks c2 ≠ [] :=
        toks_ne_nil c2 (wfList_mem hwl.2 c2 (List.mem_cons_self c2 rest))
      simp only [PT.toksList] at hch
      rw [List.chain'_append] at hch
      obtain ⟨hch1, hch2, hbd⟩ := hch
      rw [List.chain'_cons]
      constructor
      · cases hlast : (PT.toks c1).getLast? with
        | none => exact absurd (List.getLast?_eq_none_iff.mp hlast) h1
        | some x =>
          cases hhead : (PT.toks c2).head? with
          | none => exact absurd (List.head?_eq_none_iff.mp hhead) h2
          | some y =>
            have hy : (PT.toksList (c2 :: rest)).head? = some y := by
              rw [toksList_head h2, hhead]
            have := hbd x (Option.mem_def.mpr hlast) y (Option.mem_def.mpr hy)
            simp only [endOffsetOf, startOffsetOf, hlast, hhead,
              Option.map_some', Option.getD_some]
            exact this
      · exact ih hwl.2 hch2

theorem rel_of_chain_cons :
    ∀ (l : List CstNode) (a : CstNode),
      (∀ c ∈ l, c.position.startOffset ≤ c.position.endOffset) →
      List.Chain' (fun x y => x.position.endOffset ≤ y.position.startOffset) (a :: l) →
      ∀ b ∈ l, a.position.endOffset ≤ b.position.startOffset := by
  intro l
  induction l with
  | nil => intro a _ _ b hb; exact absurd hb (List.not_mem_nil b)
  | cons c rest ih =>
    intro a hval hch b hb
    rw [List.chain'_cons] at hch
    rcases List.mem_cons.mp hb with hb | hb
    · exact hb ▸ hch.1
    · have hcb := ih c (fun x hx => hval x (List.mem_cons_of_mem c hx)) hch.2 b hb
      have hcv := hval c (List.mem_cons_self c rest)
      exact Nat.le_trans hch.1 (Nat.le_trans hcv hcb)

theorem pairwise_spans :
    ∀ l : List CstNode,
      (∀ c ∈ l, c.position.startOffset ≤ c.position.endOffset) →
      List.Chain' (fun x y => x.position.endOffset ≤ y.position.startOffset) l →
      List.Pairwise (fun x y => x.position.endOffset ≤ y.position.startOffset) l := by
  intro l
  induction l with
  | nil => intro _ _; exact List.Pairwise.nil
  | cons a l ih =>
    intro hval hch
    refine List.Pairwise.cons ?_ ?_
    · exact rel_of_chain_cons l a (fun x hx => hval x (List.mem_cons_of_mem a hx)) hch
    · exact ih (fun x hx => hval x (List.mem_cons_of_mem a hx)) hch.tail

theorem wf_subtree {s : List Char} :
    ∀ {q p : PT}, Subtree q p → wfPT s p = true → wfPT s q = true := by
  intro q p hsub
  induction hsub with
  | refl => exact id
  | step hmem _ ih =>
    intro h
    obtain ⟨_, hwl, _⟩ := wf_rule_parts h
    exact ih (wfList_mem hwl _ hmem)

theorem mem_preorderList_buildList {s : List Char} :
    ∀ (cs : List PT) (n : CstNode), n ∈ preorderList (buildList s cs) →
      ∃ c ∈ cs, n ∈ preorder (build s c) := by
  intro cs
  induction cs with
  | nil => intro n hn; exact absurd hn (by simp [buildList, preorderList])
  | cons c cs ih =>
    intro n hn
    simp only [buildList, preorderList, List.mem_append] at hn
    rcases hn with hn | hn
    · exact ⟨c, List.mem_cons_self c cs, hn⟩
    · obtain ⟨c2, hc2, hn2⟩ := ih n hn
      exact ⟨c2, List.mem_cons_of_mem c hc2, hn2⟩

theorem mem_preorder_build {s : List Char} :
    ∀ (p : PT) (n : CstNode), n ∈ preorder (build s p) →
      ∃ q, Subtree q p ∧ n = build s q := by
  intro p
  induction p using PT.child_ind with
  | h1 ty t =>
    intro n hn
    simp only [build, preorder, List.mem_singleton] at hn
    exact ⟨.term ty t, Subtree.refl _, by simp [build, hn]⟩
  | h2 ty cs ih =>
    intro n hn
    simp only [build, preorder, List.mem_cons] at hn
    rcases hn with hn | hn
    · exact ⟨.rule ty cs, Subtree.refl _, by simp [build, hn]⟩
    · obtain ⟨c, hc, hn2⟩ := mem_preorderList_buildList cs n hn
      obtain ⟨q, hq, hnq⟩ := ih c hc n hn2
      exact ⟨q, Subtree.step hc hq, hnq⟩

theorem self_mem_preorder (n : CstNode) : n ∈ preorder n := by
  cases n <;> simp [preorder]

theorem build_text {s : List Char} (q : PT) (h : wfPT s q = true) :
    substr s (build s q).position.startOffset (build s q).position.endOffset
      = (build s q).text := by
  cases q with
  | term ty t =>
    simp only [wfPT] at h
    have := (wfTok_parts h).2
    simpa [build, CstNode.position, CstNode.text] using this
  | rule ty cs =>
    simp [build, CstNode.position, CstNode.text]

/-- C2. Round-trip position law: for every node of a tree the visitor
builds from a well-formed parse tree of source `s`, the substring of `s`
from the node's `startOffset` to its `endOffset` is exactly the node's
`text` — for leaves and composites alike. -/
theorem claim_C2_round_trip (s : List Char) (p : PT) (h : wfPT s p = true) :
    ∀ n ∈ preorder (build s p),
      substr s n.position.startOffset n.position.endOffset = n.text := by
  intro n hn
  obtain ⟨q, hq, rfl⟩ := mem_preorder_build p n hn
  exact build_text q (wf_subtree hq h)

theorem build_rule_children_facts {s : List Char} {ty : String}
    {cs0 : List PT} (h : wfPT s (.rule ty cs0) = true) :
    buildList s cs0 ≠ []
    ∧ (∀ c, (buildList s cs0).head? = some c →
        c.position.startOffset = (build s (.rule ty cs0)).position.startOffset)
    ∧ (∀ c, (buildList s cs0).getLast? = some c →
        c.position.endOffset = (build s (.rule ty cs0)).position.endOffset)
    ∧ List.Pairwise (fun a b => a.position.endOffset ≤ b.position.startOffset)
        (buildList s cs0) := by
  obtain ⟨hne, hwl, hord⟩ := wf_rule_parts h
  rw [buildList_eq_map]
  refine ⟨by simpa using hne, ?_, ?_, ?_⟩
  · intro c hc
    cases cs0 with
    | nil => simp at hc
    | cons d rest =>
      rw [List.head?_map, List.head?_cons, Option.map_some',
        Option.some.injEq] at hc
      subst hc
      rw [build_position s d, build_position s (.rule ty (d :: rest)),
        startOffsetOf_rule_head h]
  · intro c hc
    rw [List.getLast?_map] at hc
    cases hh : cs0.getLast? with
    | none => rw [hh] at hc; exact Option.noConfusion hc
    | some c0 =>
      rw [hh] at hc
      simp only [Option.map_some', Option.some.injEq] at hc
      subst hc
      rw [build_position s c0, build_position s (.rule ty cs0),
        endOffsetOf_rule_last h hh]
  · have hchPT := chain_spans cs0 hwl ((toksOrdered_chain _).mp hord)
    have hchC : List.Chain'
        (fun a b => a.position.endOffset ≤ b.position.startOffset)
        (cs0.map (build s)) := by
      rw [List.chain'_map]
      refine hchPT.imp ?_
      intro a b hab
      rw [build_position s a, build_position s b]
      exact hab
    refine pairwise_spans _ ?_ hchC
    intro c hcm
    obtain ⟨c0, hc0, rfl⟩ := List.mem_map.mp hcm
    rw [build_position s c0]
    exact span_le c0 (wfList_mem hwl c0 hc0)

/-- C3. Span-coverage law: every composite node of a tree the visitor
builds from a well-formed parse tree has a non-empty children array, its
`startOffset` equals its first child's `startOffset`, its `endOffset`
equals its last child's `endOffset`, and the children are pairwise
non-overlapping and ordered by source position. -/
theorem claim_C3_span_coverage (s : List Char) (p : PT) (h : wfPT s p = true) :
    ∀ n ∈ preorder (build s p), ∀ cs, n.children = some cs →
      cs ≠ []
      ∧ (∀ c, cs.head? = some c → c.position.startOffset = n.position.startOffset)
      ∧ (∀ c, cs.getLast? = some c → c.position.endOffset = n.position.endOffset)
      ∧ List.Pairwise (fun a b => a.position.endOffset ≤ b.position.startOffset) cs := by
  intro n hn cs hcs
  obtain ⟨q, hq, rfl⟩ := mem_preorder_build p n hn
  have hwq := wf_subtree hq h
  cases q with
  | term ty t => simp [build, CstNode.children] at hcs
  | rule ty cs0 =>
    simp only [build, CstNode.children, Option.some.injEq] at hcs
    subst hcs
    exact build_rule_children_facts hwq

/-- C4. Token-leaf law: in a tree the visitor builds from a well-formed
parse tree, a node's `children` field is absent exactly when the node is
the `Token` variant (`isToken`, the docs' type guard, tests exactly
this), and every composite node carries a non-empty children array. -/
theorem claim_C4_token_leaf (s : List Char) (p : PT) (h : wfPT s p = true) :
    ∀ n ∈ preorder (build s p),
      (n.children = none ↔ ∃ ty tx pos, n = CstNode.token ty tx pos)
      ∧ (isToken n = true ↔ n.children = none)
      ∧ (∀ cs, n.children = some cs → cs ≠ []) := by
  intro n hn
  refine ⟨?_, ?_, ?_⟩
  · cases n with
    | token ty tx pos => simp [CstNode.children]
    | node ty tx pos cs => simp [CstNode.children]
  · rw [isToken, Option.isNone_iff_eq_none]
  · intro cs hcs
    obtain ⟨q, hq, rfl⟩ := mem_preorder_build p n hn
    have hwq := wf_subtree hq h
    cases q with
    | term ty t => simp [build, CstNode.children] at hcs
    | rule ty cs0 =>
      simp only [build, CstNode.children, Option.some.injEq] at hcs
      subst hcs
      exact (build_rule_children_facts hwq).1

/-- C1. The entry point is total: it is a function defined on every
source string; it returns `none` exactly when the external parser signals
irrecoverable syntax failure (no parse tree), and in every other case it
returns the visited tree. -/
theorem claim_C1_parse_total (external : List Char → Option PT) (s : List Char) :
    (parse external s = none ↔ external s = none)
    ∧ ∀ pt, external s = some pt → parse external s = some (build s pt) := by
  cases h : external s <;> simp [parse, h]

/-- Witness for C1: a failing external parse yields `none`, a succeeding
one yields the visited tree. -/
theorem claim_C1_parse_total_witness :
    parse (fun _ => none) ['x'] = none
    ∧ parse (fun _ => some (.term "Identifier" ⟨0, ['x']⟩)) ['x']
        = some (build ['x'] (.term "Identifier" ⟨0, ['x']⟩)) :=
  ⟨(claim_C1_parse_total (fun _ => none) ['x']).1.mpr rfl,
    (claim_C1_parse_total (fun _ => some (.term "Identifier" ⟨0, ['x']⟩)) ['x']).2
      (.term "Identifier" ⟨0, ['x']⟩) rfl⟩

/-! ## The identifier-extraction scenario -/

/-- `extractIdentifiers` from the JavaScript package docs: an inner
`traverse` pushes `n.text` for every node with `n.type === 'Identifier'`,
in traversal order. -/
def extractIdentifiers (node : CstNode) : List (List Char) :=
  traverse (fun n ids => if n.type == "Identifier" then ids ++ [n.text] else ids)
    node []

/-- The source text of the scenario: `const greeting = message + "!";`. -/
def srcEx : List Char := "const greeting = message + \"!\";".toList

/-- Modelled from the spec: the statement body of the external parse tree
for `srcEx` — the `parseJavaScript` body and its generated grammar are
not in the repository tree, so the parse tree of the scenario is written
out following the documented CST shape and token stream
(`const`@0, `greeting`@6, `=`@15, `message`@17, `+`@25, `"!"`@27,
`;`@30). -/
def ptExBody : List PT :=
  [.rule "VariableDeclaration"
    [.term "Keyword" ⟨0, "const".toList⟩,
     .rule "VariableDeclarator"
       [.term "Identifier" ⟨6, "greeting".toList⟩,
        .term "Punctuator" ⟨15, "=".toList⟩,
        .rule "BinaryExpression"
          [.term "Identifier" ⟨17, "message".toList⟩,
           .term "Punctuator" ⟨25, "+".toList⟩,
           .term "StringLiteral" ⟨27, "\"!\"".toList⟩]],
     .term "Punctuator" ⟨30, ";".toList⟩]]

/-- Modelled from the spec: the external parse tree for `srcEx`, rooted at
the grammar's entry rule. -/
def ptEx : PT := .rule "Program" ptExBody

/-- C9. Identifier-extraction scenario: on the tree parsed from
`const greeting = message + "!";` (modelled parse tree `ptEx`, well
formed for `srcEx`), `extractIdentifiers` yields exactly
`["greeting", "message"]` in source order. -/
theorem claim_C9_identifier_extraction :
    wfPT srcEx ptEx = true
    ∧ parse (fun _ => some ptEx) srcEx = some (build srcEx ptEx)
    ∧ extractIdentifiers (build srcEx ptEx)
        = ["greeting".toList, "message".toList] := by
  refine ⟨by decide, rfl, by decide⟩

/-- Witness for C2 at the scenario tree: the root node of the built tree
satisfies the round-trip law. -/
theorem claim_C2_round_trip_witness :
    substr srcEx (build srcEx ptEx).position.startOffset
        (build srcEx ptEx).position.endOffset
      = (build srcEx ptEx).text :=
  claim_C2_round_trip srcEx ptEx (by decide) (build srcEx ptEx)
    (self_mem_preorder _)

/-- Witness for C3 at the scenario tree: the root composite's children
are non-empty and pairwise non-overlapping in order. -/
theorem claim_C3_span_coverage_witness :
    buildList srcEx ptExBody ≠ []
    ∧ List.Pairwise (fun a b => a.position.endOffset ≤ b.position.startOffset)
        (buildList srcEx ptExBody) :=
  have h := claim_C3_span_coverage srcEx ptEx (by decide) (build srcEx ptEx)
    (self_mem_preorder _) (buildList srcEx ptExBody) rfl
  ⟨h.1, h.2.2.2⟩

/-- Witness for C4 at the scenario tree: the root composite's children
array is present and non-empty. -/
theorem claim_C4_token_leaf_witness :
    buildList srcEx ptExBody ≠ [] :=
  (claim_C4_token_leaf srcEx ptEx (by decide) (build srcEx ptEx)
      (self_mem_preorder _)).2.2 (buildList srcEx ptExBody) rfl

end Ast
